import Mathlib

/-!
Verification of the kilo terminal text editor (src/kilo.c) against its
natural-language specification.  The C program is shallowly embedded:
rows are lists of characters, the per-row highlighter loop is a fuel-based
step function (the fuel is shown sufficient), and the editor's global
state is an explicit structure threaded through the operations.
-/

namespace Kilo

/-- `enum editor_highlight` from kilo.c. -/
inductive Hl where
  | normal
  | comment
  | mlcomment
  | keyword1
  | keyword2
  | string
  | number
  | matched
  deriving DecidableEq, Repr

/-- A syntax definition (`struct editor_syntax`): keyword list (a trailing
bar marks the second keyword class), single-line comment marker, multi-line
comment start/end markers, and the two highlight flags.  A `[]` marker
plays the role of a NULL / empty marker in the C code (both make the
corresponding `*_len != 0` guard fail). -/
structure SynDef where
  keywords : List (List Char)
  slcs : List Char
  mlcs : List Char
  mlce : List Char
  flagNumbers : Bool
  flagStrings : Bool
  deriving DecidableEq, Repr

/-- `struct editor_row`: raw bytes, derived render bytes, derived highlight
tags, and the `hl_open_comment` flag.  The stored index `i` of the C struct
is derivable from the row's position and is not modelled. -/
structure Row where
  chars : List Char
  render : List Char
  highlight : List Hl
  hl_open_comment : Bool
  deriving DecidableEq, Repr

/-- A freshly inserted row before `editor_update_row` runs on it
(kilo.c lines 548-556). -/
def newRow (s : List Char) : Row :=
  { chars := s, render := [], highlight := [], hl_open_comment := false }

/-- The single-quote character (ASCII 39). -/
def squote : Char := Char.ofNat 39

/-- The NUL byte that terminates every C string buffer. -/
def nul : Char := Char.ofNat 0

/-- The escape byte 0x1b. -/
def esc : Char := Char.ofNat 27

/-- `is_separator` (kilo.c lines 304-306): whitespace, NUL, or one of the
fixed sixteen-character punctuation set (comma, period, parens, arithmetic
and comparison operators, brackets, semicolon). -/
def is_separator (c : Char) : Bool :=
  (c = ' ' ∨ c = '\t' ∨ c = '\n' ∨ c = Char.ofNat 11 ∨ c = Char.ofNat 12 ∨ c = '\r')
    ∨ c = nul
    ∨ [',', '.', '(', ')', '+', '-', '/', '*', '=', '~', '%', '<', '>', '[', ']', ';'].contains c

/-- The keyword-matching inner loop of `editor_update_syntax` (kilo.c lines
399-414): walk the keyword list; a trailing bar selects the second class and
is dropped from the matched length; the match requires the keyword bytes to
be present at the current position and the byte right after them to be a
separator.  When the keyword ends exactly at end of row that byte is the
NUL terminator of the render buffer, modelled by the `nul` default of
`getD`.  Returns the matched length and tag. -/
def findKeyword (kws : List (List Char)) (rem : List Char) : Option (Nat × Hl) :=
  match kws with
  | [] => none
  | kw :: rest =>
    let isK2 := kw.getLast? = some '|'
    let kweff := if isK2 then kw.dropLast else kw
    if kweff.isPrefixOf rem ∧ is_separator (rem.getD kweff.length nul) then
      some (kweff.length, if isK2 then Hl.keyword2 else Hl.keyword1)
    else findKeyword rest rem

/-- The state carried by the `while` loop of `editor_update_syntax`:
the highlight tags assigned so far (in reverse), `prev_sep`, `in_comment`
and the open quote character. -/
structure ScanState where
  acc : List Hl
  prev_sep : Bool
  in_comment : Bool
  quote : Option Char
  deriving DecidableEq, Repr

/-- Result of one iteration of the scanning loop: either the loop is over
(row exhausted, or single-line comment marker fills the rest), or it
continues on a shorter/equal suffix with an updated state. -/
inductive StepRes where
  | done (hl : List Hl) (open_comment : Bool)
  | cont (rem : List Char) (st : ScanState)
  deriving DecidableEq, Repr

/-- One iteration of the `while (i < row->render_size)` loop of
`editor_update_syntax` (kilo.c lines 330-424), transcribed branch by
branch in the C order: single-line comment, multi-line comment
(inside / opening), strings (inside / opening quote), numbers, keywords,
default. -/
def scanStep (syn : SynDef) (rem : List Char) (st : ScanState) : StepRes :=
  match rem with
  | [] => .done st.acc.reverse st.in_comment
  | c :: rest =>
    let prev_hl := st.acc.headD Hl.normal
    if syn.slcs ≠ [] ∧ st.quote = none ∧ st.in_comment = false ∧ syn.slcs.isPrefixOf rem then
      .done (st.acc.reverse ++ List.replicate rem.length Hl.comment) st.in_comment
    else if syn.mlcs ≠ [] ∧ syn.mlce ≠ [] ∧ st.quote = none ∧ st.in_comment = true then
      if syn.mlce.isPrefixOf rem then
        .cont (rem.drop syn.mlce.length)
          { st with acc := List.replicate syn.mlce.length Hl.mlcomment ++ st.acc,
                    in_comment := false, prev_sep := true }
      else
        .cont rest { st with acc := Hl.mlcomment :: st.acc }
    else if syn.mlcs ≠ [] ∧ syn.mlce ≠ [] ∧ st.quote = none ∧ syn.mlcs.isPrefixOf rem then
      .cont (rem.drop syn.mlcs.length)
        { st with acc := List.replicate syn.mlcs.length Hl.mlcomment ++ st.acc,
                  in_comment := true }
    else if syn.flagStrings ∧ st.quote ≠ none then
      if c = '\\' ∧ rest ≠ [] then
        .cont (rem.drop 2) { st with acc := Hl.string :: Hl.string :: st.acc }
      else
        .cont rest
          { st with acc := Hl.string :: st.acc,
                    quote := if st.quote = some c then none else st.quote,
                    prev_sep := true }
    else if syn.flagStrings ∧ (c = '"' ∨ c = squote) then
      .cont rest { st with acc := Hl.string :: st.acc, quote := some c }
    else if syn.flagNumbers ∧ c.isDigit
        ∧ (st.prev_sep ∨ prev_hl = Hl.number ∨ (c = '.' ∧ prev_hl = Hl.number)) then
      .cont rest { st with acc := Hl.number :: st.acc, prev_sep := false }
    else if st.prev_sep then
      match findKeyword syn.keywords rem with
      | some (klen, tag) =>
        .cont (rem.drop klen) { st with acc := List.replicate klen tag ++ st.acc, prev_sep := false }
      | none => .cont rest { st with acc := Hl.normal :: st.acc, prev_sep := is_separator c }
    else
      .cont rest { st with acc := Hl.normal :: st.acc, prev_sep := is_separator c }

/-- The scanning loop, iterating `scanStep` on explicit fuel.  Every C loop
iteration either consumes at least one byte or turns `prev_sep` from true
to false at the same position (a matched keyword of effective length 0), so
`2 * length + 1` fuel always suffices; this is proved below
(`scanRowFuel_isSome`). -/
def scanRowFuel (syn : SynDef) : Nat → List Char → ScanState → Option (List Hl × Bool)
  | 0, _, _ => none
  | fuel + 1, rem, st =>
    match scanStep syn rem st with
    | .done hl b => some (hl, b)
    | .cont rem' st' => scanRowFuel syn fuel rem' st'

/-- `editor_update_syntax`'s scan of one row (kilo.c lines 308-424),
given the render text and the `in_comment` seed from the previous row's
`hl_open_comment`.  Returns the highlight array and the final value of
`in_comment` (the row's new `hl_open_comment`).  The default of `getD` is
never reached (`scanRowFuel_isSome`). -/
def scanRow (syn : SynDef) (render : List Char) (seed : Bool) : List Hl × Bool :=
  (scanRowFuel syn (2 * render.length + 2) render
      { acc := [], prev_sep := true, in_comment := seed, quote := none }).getD
    (List.replicate render.length Hl.normal, seed)

/-- The tab-expansion step of `editor_update_row` (kilo.c lines 520-527):
one space, then spaces until the render length is a multiple of 8
(`KILO_TAB_STOP`). -/
def padTab (acc : List Char) : List Char :=
  let acc1 := acc ++ [' ']
  acc1 ++ List.replicate ((8 - acc1.length % 8) % 8) ' '

/-- Derivation of `render` from `chars` (kilo.c lines 509-530): tabs expand
to the next multiple of 8 columns, all other bytes pass through. -/
def renderOfChars (chars : List Char) : List Char :=
  chars.foldl (fun acc c => if c = '\t' then padTab acc else acc ++ [c]) []

/-- The `in_comment` seed of a row (kilo.c line 328):
`row->i > 0 && editor.rows[row->i - 1].hl_open_comment`. -/
def seedOf (rows : List Row) (idx : Nat) : Bool :=
  match idx with
  | 0 => false
  | j + 1 =>
    match rows[j]? with
    | some r => r.hl_open_comment
    | none => false

/-- `editor_update_row` together with `editor_update_syntax`'s cross-row
cascade (kilo.c lines 509-533 and 426-429), on explicit fuel: re-derive
the row's render; with no active syntax just reset the highlight to all
normal (the early return at kilo.c line 317, which leaves
`hl_open_comment` untouched); otherwise scan the row, store the result,
and when the row's `hl_open_comment` changed and `idx + 1 < nrows`
recursively re-run on the next row.  `nrows` is the value of
`editor.num_rows` during the call: `editor_insert_row` updates the new row
*before* incrementing `num_rows`, so there it is one less than the length
of the row list. -/
def updateRowFuel (syn : Option SynDef) : Nat → Nat → List Row → Nat → Option (List Row)
  | 0, _, _, _ => none
  | fuel + 1, nrows, rows, idx =>
    match rows[idx]? with
    | none => some rows
    | some row =>
      let render := renderOfChars row.chars
      match syn with
      | none =>
        some (rows.set idx
          { row with render := render, highlight := List.replicate render.length Hl.normal })
      | some s =>
        let res := scanRow s render (seedOf rows idx)
        let row2 : Row :=
          { row with render := render, highlight := res.1, hl_open_comment := res.2 }
        let rows2 := rows.set idx row2
        if row.hl_open_comment ≠ res.2 ∧ idx + 1 < nrows then
          updateRowFuel syn fuel nrows rows2 (idx + 1)
        else
          some rows2

/-- `editor_update_row` entry point: the cascade visits at most
`rows.length - idx` rows (proved below), so that much fuel is enough.
The `getD` default is never reached for a valid index. -/
def editor_update_row (syn : Option SynDef) (nrows : Nat) (rows : List Row) (idx : Nat) :
    List Row :=
  (updateRowFuel syn (rows.length - idx) nrows rows idx).getD rows

/-- One byte's advance of the render column (body of the loops in
`editor_row_cx_to_rx` / `editor_row_rx_to_cx`, kilo.c lines 482-486 and
495-498): a tab advances to the next multiple of 8, anything else by 1. -/
def nextRx (c : Char) (rx : Nat) : Nat :=
  if c = '\t' then rx + (7 - rx % 8) + 1 else rx + 1

/-- Loop of `editor_row_cx_to_rx` (kilo.c lines 479-489), folding `nextRx`
over the first `cursor_x` bytes.  Callers keep `cursor_x ≤ chars.length`;
past the end the fold just stops (the C code never reads there). -/
def cxToRxAux : List Char → Nat → Nat → Nat
  | _, 0, rx => rx
  | [], _ + 1, rx => rx
  | c :: rest, n + 1, rx => cxToRxAux rest n (nextRx c rx)

/-- `editor_row_cx_to_rx` (kilo.c lines 479-489). -/
def editor_row_cx_to_rx (chars : List Char) (cursor_x : Nat) : Nat :=
  cxToRxAux chars cursor_x 0

/-- Loop of `editor_row_rx_to_cx` (kilo.c lines 491-507): walk the row
accumulating the render column; return the first byte offset whose render
column passes `render_x`, or the row length. -/
def rxToCxAux : List Char → Nat → Nat → Nat → Nat
  | [], cx, _, _ => cx
  | c :: rest, cx, cur, rx =>
    let cur2 := nextRx c cur
    if rx < cur2 then cx else rxToCxAux rest (cx + 1) cur2 rx

/-- `editor_row_rx_to_cx` (kilo.c lines 491-507). -/
def editor_row_rx_to_cx (chars : List Char) (render_x : Nat) : Nat :=
  rxToCxAux chars 0 0 render_x

/-- The global editor state (`struct editor_config`), restricted to the
fields the document model uses.  Viewport fields and the status timestamp
are not needed by the verified claims. -/
structure EState where
  rows : List Row
  cursor_x : Nat
  cursor_y : Nat
  dirty : Nat
  file : Option (List Char)
  syn : Option SynDef
  statusmsg : String
  deriving DecidableEq, Repr

/-- `editor_insert_row` (kilo.c lines 535-561): out-of-range `at` is a
no-op; otherwise insert the fresh row, update it (note `num_rows` is
incremented only afterwards, so the cascade inside this update sees the
old row count), and bump `dirty`. -/
def editor_insert_row (st : EState) (pos : Nat) (s : List Char) : EState :=
  if pos > st.rows.length then st
  else
    { st with
        rows := editor_update_row st.syn st.rows.length (st.rows.insertIdx pos (newRow s)) pos,
        dirty := st.dirty + 1 }

/-- `editor_del_row` (kilo.c lines 569-582): out-of-range `at` is a no-op;
otherwise remove the row and bump `dirty` (no re-highlighting happens). -/
def editor_del_row (st : EState) (pos : Nat) : EState :=
  if pos ≥ st.rows.length then st
  else { st with rows := st.rows.eraseIdx pos, dirty := st.dirty + 1 }

/-- `editor_row_append_string` (kilo.c lines 584-593), lifted to the row
index `y`; the C caller always passes a valid row. -/
def editor_row_append_string (st : EState) (y : Nat) (s : List Char) : EState :=
  match st.rows[y]? with
  | none => st
  | some row =>
    let rows1 := st.rows.set y { row with chars := row.chars ++ s }
    { st with rows := editor_update_row st.syn rows1.length rows1 y, dirty := st.dirty + 1 }

/-- `editor_row_insert_char` (kilo.c lines 595-605): an out-of-range
position is clamped to the end of the row. -/
def editor_row_insert_char (st : EState) (y pos : Nat) (c : Char) : EState :=
  match st.rows[y]? with
  | none => st
  | some row =>
    let p := if pos > row.chars.length then row.chars.length else pos
    let rows1 := st.rows.set y { row with chars := row.chars.insertIdx p c }
    { st with rows := editor_update_row st.syn rows1.length rows1 y, dirty := st.dirty + 1 }

/-- `editor_row_del_char` (kilo.c lines 607-614): out-of-range positions
are a no-op. -/
def editor_row_del_char (st : EState) (y pos : Nat) : EState :=
  match st.rows[y]? with
  | none => st
  | some row =>
    if pos ≥ row.chars.length then st
    else
      let rows1 := st.rows.set y { row with chars := row.chars.eraseIdx pos }
      { st with rows := editor_update_row st.syn rows1.length rows1 y, dirty := st.dirty + 1 }

/-- `editor_insert_char` (kilo.c lines 616-621). -/
def editor_insert_char (st : EState) (c : Char) : EState :=
  let st1 := if st.cursor_y = st.rows.length then editor_insert_row st st.rows.length [] else st
  let st2 := editor_row_insert_char st1 st1.cursor_y st1.cursor_x c
  { st2 with cursor_x := st2.cursor_x + 1 }

/-- Second half of `editor_insert_newline`'s nonzero-column branch
(kilo.c lines 631-634 plus the shared cursor move of lines 636-637):
truncate row `y` of the post-insert state to its first `x` bytes, update
it, and move the cursor to the start of the next row. -/
def newlineFinish (st1 : EState) (y x : Nat) : EState :=
  match st1.rows[y]? with
  | none => st1
  | some row2 =>
    let rows3 := st1.rows.set y { row2 with chars := row2.chars.take x }
    { st1 with rows := editor_update_row st1.syn rows3.length rows3 y,
               cursor_y := y + 1, cursor_x := 0 }

/-- `editor_insert_newline` (kilo.c lines 623-638): at column 0 insert an
empty row above; otherwise insert the tail of the current row below, then
truncate the current row and update it.  The C code only reaches the
second branch with the cursor on an existing row. -/
def editor_insert_newline (st : EState) : EState :=
  if st.cursor_x = 0 then
    let st1 := editor_insert_row st st.cursor_y []
    { st1 with cursor_y := st1.cursor_y + 1, cursor_x := 0 }
  else
    match st.rows[st.cursor_y]? with
    | none => st
    | some row =>
      newlineFinish (editor_insert_row st (st.cursor_y + 1) (row.chars.drop st.cursor_x))
        st.cursor_y st.cursor_x

/-- `editor_del_char` (kilo.c lines 640-658): nothing past EOF or at the
very start; inside a row delete the byte left of the cursor; at column 0
append this row to the previous one and delete it. -/
def editor_del_char (st : EState) : EState :=
  if st.cursor_y = st.rows.length then st
  else if st.cursor_x = 0 ∧ st.cursor_y = 0 then st
  else if 0 < st.cursor_x then
    let st1 := editor_row_del_char st st.cursor_y (st.cursor_x - 1)
    { st1 with cursor_x := st.cursor_x - 1 }
  else
    match st.rows[st.cursor_y]?, st.rows[st.cursor_y - 1]? with
    | some row, some prow =>
      let st1 := { st with cursor_x := prow.chars.length }
      let st2 := editor_row_append_string st1 (st.cursor_y - 1) row.chars
      let st3 := editor_del_row st2 st.cursor_y
      { st3 with cursor_y := st.cursor_y - 1 }
    | _, _ => st

/-- `editor_open` (kilo.c lines 680-703) after the file has been split
into stripped lines: start from the initial state, insert one row per
line at the end, and reset `dirty` to zero. -/
def editor_open (syn : Option SynDef) (file : List Char) (lines : List (List Char)) : EState :=
  let st0 : EState :=
    { rows := [], cursor_x := 0, cursor_y := 0, dirty := 0,
      file := some file, syn := syn, statusmsg := "" }
  let st1 := lines.foldl (fun st l => editor_insert_row st st.rows.length l) st0
  { st1 with dirty := 0 }

/-- The chunks `getline` delivers (kilo.c line 693): maximal pieces of the
file content each ending in a newline, plus a final newline-less piece
when the content does not end in a newline.  The accumulator holds the
current chunk reversed. -/
def splitLinesAux : List Char → List Char → List (List Char)
  | [], acc => if acc = [] then [] else [acc.reverse]
  | c :: rest, acc =>
    if c = '\n' then (acc.reverse ++ ['\n']) :: splitLinesAux rest []
    else splitLinesAux rest (c :: acc)

/-- Split file content into `getline` chunks. -/
def splitLines (s : List Char) : List (List Char) :=
  splitLinesAux s []

/-- The stripping loop of `editor_open` (kilo.c lines 694-696): drop
trailing newline and carriage-return bytes from a line. -/
def stripTrail (l : List Char) : List Char :=
  (l.reverse.dropWhile (fun c => c == '\n' || c == '\r')).reverse

/-- `editor_rows_to_string` (kilo.c lines 660-678) on the rows' raw text:
every row is followed by one newline byte. -/
def editor_rows_to_string (rows : List (List Char)) : List Char :=
  (rows.map (fun r => r ++ ['\n'])).flatten

/-- Load a file's content: `getline` chunks, each stripped of trailing
newline / carriage-return bytes, one row per chunk (kilo.c lines
693-698). -/
def editor_open_content (content : List Char) : EState :=
  editor_open none [] ((splitLines content).map stripTrail)

/-- The buffer `editor_save` would write for a state (kilo.c line 708). -/
def editor_save_payload (st : EState) : List Char :=
  editor_rows_to_string (st.rows.map (fun r => r.chars))

/-- Which of `editor_save`'s three fallible system calls fails, if any
(kilo.c lines 721-737). -/
inductive SaveOutcome where
  | openFail
  | truncateFail
  | writeFail
  | success
  deriving DecidableEq, Repr

/-- `editor_save` (kilo.c lines 705-745) with the I/O outcome made
explicit.  With no filename the C code prompts; a cancelled prompt leaves
the state untouched except for the status message, which is the only part
of that path the claims rely on.  On any I/O failure the function jumps to
cleanup having touched nothing but the status message; on success it
reports the byte count and clears `dirty`. -/
def editor_save (st : EState) (out : SaveOutcome) : EState :=
  match st.file with
  | none => { st with statusmsg := "Save aborted" }
  | some _ =>
    match out with
    | .success =>
      { st with dirty := 0, statusmsg := "bytes written to disk" }
    | _ => { st with statusmsg := "I/O error" }

/-- Logical key events (`enum editor_key` plus plain bytes). -/
inductive Key where
  | ch (c : Char)
  | arrowLeft
  | arrowRight
  | arrowUp
  | arrowDown
  | delKey
  | homeKey
  | endKey
  | pageUp
  | pageDown
  deriving DecidableEq, Repr

/-- `editor_read_key` (kilo.c lines 200-269).  `c` is the first byte (the
C code blocks until one arrives); `r0 r1 r2` are what the up-to-three
follow-up reads would deliver, `none` meaning the 0.1-second poll timed
out.  A non-escape byte is returned verbatim; an escape byte starts
sequence collection, and every timeout or unrecognized sequence collapses
to a bare escape. -/
def editor_read_key (c : Char) (r0 r1 r2 : Option Char) : Key :=
  if c = esc then
    match r0, r1 with
    | some s0, some s1 =>
      if s0 = '[' then
        if '0' ≤ s1 ∧ s1 ≤ '9' then
          match r2 with
          | some s2 =>
            if s2 = '~' then
              if s1 = '1' then .homeKey
              else if s1 = '3' then .delKey
              else if s1 = '4' then .endKey
              else if s1 = '5' then .pageUp
              else if s1 = '6' then .pageDown
              else if s1 = '7' then .homeKey
              else if s1 = '8' then .endKey
              else .ch esc
            else .ch esc
          | none => .ch esc
        else
          if s1 = 'A' then .arrowUp
          else if s1 = 'B' then .arrowDown
          else if s1 = 'D' then .arrowLeft
          else if s1 = 'C' then .arrowRight
          else if s1 = 'H' then .homeKey
          else if s1 = 'F' then .endKey
          else .ch esc
      else if s0 = 'O' then
        if s1 = 'H' then .homeKey
        else if s1 = 'F' then .endKey
        else .ch esc
      else .ch esc
    | _, _ => .ch esc
  else .ch c

/-- The three recognized escape-sequence families of the specification:
`ESC [ <letter>`, `ESC [ <digit> ~`, and `ESC O <letter>`. -/
def recognizedFamily (r0 r1 r2 : Option Char) : Bool :=
  match r0, r1 with
  | some s0, some s1 =>
    (s0 == '[' && s1.isAlpha)
      || (s0 == '[' && ('0' ≤ s1 && s1 ≤ '9') && r2 == some '~')
      || (s0 == 'O' && s1.isAlpha)
  | _, _ => false

/-- `strstr(hay, needle)` as the index of the first occurrence of `needle`
as a contiguous substring of `hay` (kilo.c line 806). -/
def strstrIdx (needle : List Char) (hay : List Char) : Option Nat :=
  match hay with
  | [] => if needle.isPrefixOf ([] : List Char) then some 0 else none
  | c :: t =>
    if needle.isPrefixOf (c :: t) then some 0
    else (strstrIdx needle t).map (fun n => n + 1)

/-- Overwrite `len` tags starting at `start` with `tag` (the
`memset(&row->highlight[rx], HL_MATCH, strlen(query))` of kilo.c
line 819; the match always fits inside the row). -/
def setSpan (hl : List Hl) (start len : Nat) (tag : Hl) : List Hl :=
  hl.take start ++ List.replicate len tag ++ hl.drop (start + len)

/-- The static state of `editor_find_callback` (kilo.c lines 766-769):
`last_match` (-1 = no match yet), `direction` (1 forward, -1 backward) and
the saved highlight snapshot of the currently marked row. -/
structure FindState where
  last_match : Int
  direction : Int
  saved : Option (Nat × List Hl)
  deriving DecidableEq, Repr

/-- Result of one search step: the (possibly restored / re-marked) rows,
the new static state, and the new cursor position when a match was
found. -/
structure FindOut where
  rows : List Row
  fs : FindState
  cursor : Option (Nat × Nat)
  deriving DecidableEq, Repr

/-- The row-scanning loop of `editor_find_callback` (kilo.c lines
794-822): visit at most `fuel = num_rows` rows starting at `current`,
wrapping -1 to the last row and `num_rows` to the first; report the first
row containing the query together with the match's render column. -/
def findLoop (rows : List Row) (query : List Char) (dir : Int) :
    Nat → Int → Option (Nat × Nat)
  | 0, _ => none
  | fuel + 1, current =>
    let cur : Nat :=
      if current = -1 then rows.length - 1
      else if current = (rows.length : Int) then 0
      else current.toNat
    match rows[cur]? with
    | none => none
    | some row =>
      match strstrIdx query row.render with
      | some rx => some (cur, rx)
      | none => findLoop rows query dir fuel ((cur : Int) + dir)

/-- `editor_find_callback` (kilo.c lines 765-823): restore the saved
highlight snapshot if any; on Enter/Escape reset the static state; on
arrow keys pick the direction, on any other key reset to
"no match yet, forward"; force the direction forward when there is no
previous match; then scan the rows from `last_match + direction` and mark
the first hit. -/
def editor_find_callback (rows0 : List Row) (query : List Char) (key : Key)
    (fs0 : FindState) : FindOut :=
  let rows :=
    match fs0.saved with
    | some (line, hl) =>
      match rows0[line]? with
      | some r => rows0.set line { r with highlight := hl }
      | none => rows0
    | none => rows0
  if key = Key.ch '\r' ∨ key = Key.ch esc then
    { rows := rows, fs := { last_match := -1, direction := 1, saved := none }, cursor := none }
  else
    let isFwd := key = Key.arrowRight ∨ key = Key.arrowDown
    let isBwd := key = Key.arrowLeft ∨ key = Key.arrowUp
    let dir0 : Int := if isFwd then 1 else if isBwd then -1 else 1
    let lm0 : Int := if isFwd ∨ isBwd then fs0.last_match else -1
    let dir : Int := if lm0 = -1 then 1 else dir0
    match findLoop rows query dir rows.length (lm0 + dir) with
    | none =>
      { rows := rows, fs := { last_match := lm0, direction := dir, saved := none },
        cursor := none }
    | some (cur, rx) =>
      match rows[cur]? with
      | none =>
        { rows := rows, fs := { last_match := lm0, direction := dir, saved := none },
          cursor := none }
      | some row =>
        { rows := rows.set cur { row with highlight := setSpan row.highlight rx query.length Hl.matched },
          fs := { last_match := (cur : Int), direction := dir, saved := some (cur, row.highlight) },
          cursor := some (cur, editor_row_rx_to_cx row.chars rx) }

/-- The C-language entry of `highlight_db` (kilo.c lines 73-90). -/
def cSynDef : SynDef :=
  { keywords :=
      ["switch", "if", "while", "for", "break", "continue",
       "return", "else", "struct", "union", "typedef", "static",
       "enum", "class", "case", "int|", "long|", "double|",
       "float|", "char|", "unsigned|", "signed|", "void|"].map String.toList,
    slcs := "//".toList,
    mlcs := "/*".toList,
    mlce := "*/".toList,
    flagNumbers := true,
    flagStrings := true }

/-! ## Concrete documents used by the functional-correctness claims -/

/-- The four-row document of the multi-line-comment propagation test,
loaded with the C syntax definition active. -/
def mlcDoc : EState :=
  editor_open (some cSynDef) "t.c".toList
    (["/* start", "still in comment", "end */", "code"].map String.toList)

/-- The row `intx = 1;` loaded with the C syntax definition active. -/
def kwDocNoSep : EState :=
  editor_open (some cSynDef) "t.c".toList ["intx = 1;".toList]

/-- The row `int x = 1;` loaded with the C syntax definition active. -/
def kwDocSep : EState :=
  editor_open (some cSynDef) "t.c".toList ["int x = 1;".toList]

/-- The single row `return` loaded with the C syntax definition active. -/
def kwDocEol : EState :=
  editor_open (some cSynDef) "t.c".toList ["return".toList]

/-- The three-row search document `foo` / `bar` / `foo`. -/
def findDoc : List Row :=
  (editor_open none "f".toList (["foo", "bar", "foo"].map String.toList)).rows

/-- The initial static state of the search callback. -/
def findFs0 : FindState := { last_match := -1, direction := 1, saved := none }

/-- First search step with a forward key from the no-match-yet state. -/
def findStep1 : FindOut := editor_find_callback findDoc "foo".toList Key.arrowRight findFs0

/-- Second forward search step. -/
def findStep2 : FindOut := editor_find_callback findStep1.rows "foo".toList Key.arrowRight findStep1.fs

/-- Third forward search step. -/
def findStep3 : FindOut := editor_find_callback findStep2.rows "foo".toList Key.arrowRight findStep2.fs

/-- A search step with a backward key from the no-match-yet state. -/
def findStepBwd : FindOut := editor_find_callback findDoc "foo".toList Key.arrowLeft findFs0

/-- C1 as written: forward steps cycle through rows 0, 2, 0, and a
backward step from the no-match-yet state lands on the last matching
row (row 2). -/
def searchClaimProp : Prop :=
  findStep1.cursor = some (0, 0) ∧ findStep2.cursor = some (2, 0)
    ∧ findStep3.cursor = some (0, 0)
    ∧ (findStepBwd.cursor.map Prod.fst) = some 2

/-- C1, counterexample: the claim as stated is false — a backward
directional key from the no-match-yet state does *not* move the cursor to
the last matching row (row 2): `editor_find_callback` forces the direction
forward whenever `last_match` is -1 (kilo.c lines 791-792), so the cursor
lands on row 0. -/
theorem search_backward_counterexample : ¬ searchClaimProp := by
  unfold searchClaimProp
  decide

/-- C1, amended: with rows `foo`/`bar`/`foo` and query `foo`, repeated
forward search steps cycle the cursor through rows 0, 2, 0 (wrapping
circularly); a backward search step from the no-match-yet state has its
direction reset to forward and moves the cursor to the *first* matching
row, row 0. -/
theorem search_cycle_amended :
    findStep1.cursor = some (0, 0) ∧ findStep2.cursor = some (2, 0)
      ∧ findStep3.cursor = some (0, 0)
      ∧ (findStepBwd.cursor.map Prod.fst) = some 0 := by
  decide

/-- C4: with the C syntax definition, after loading the rows
`/* start`, `still in comment`, `end */`, `code`, every render byte of
rows 0-2 is tagged `mlcomment`, row 3 is all `normal`, and the
`hl_open_comment` flags show the comment state stops exactly at the
closing marker. -/
theorem mlcomment_propagation :
    mlcDoc.rows.map (fun r => r.highlight) =
      [List.replicate 8 Hl.mlcomment, List.replicate 16 Hl.mlcomment,
       List.replicate 6 Hl.mlcomment, List.replicate 4 Hl.normal]
      ∧ mlcDoc.rows.map (fun r => r.hl_open_comment) = [true, true, false, false] := by
  decide

/-- C5: with the C syntax definition, the row `intx = 1;` carries no
keyword tag on the `int` span (the byte after it is no separator), while
the row `int x = 1;` tags the `int` span with a keyword class. -/
theorem keyword_boundary :
    kwDocNoSep.rows.map (fun r => r.highlight) =
      [[Hl.normal, Hl.normal, Hl.normal, Hl.normal, Hl.normal, Hl.normal,
        Hl.normal, Hl.number, Hl.normal]]
      ∧ kwDocSep.rows.map (fun r => r.highlight) =
        [[Hl.keyword2, Hl.keyword2, Hl.keyword2, Hl.normal, Hl.normal, Hl.normal,
          Hl.normal, Hl.normal, Hl.number, Hl.normal]] := by
  decide

/-- C10: a keyword ending exactly at end of row is still matched — the
separator check then reads the NUL terminator of the render buffer, and
NUL is a separator — so the single-word row `return` is tagged entirely
as a first-class keyword. -/
theorem keyword_at_eol :
    is_separator nul = true
      ∧ kwDocEol.rows.map (fun r => r.highlight) = [List.replicate 6 Hl.keyword1] := by
  decide

/-! ## C2: load/save round trip -/

/-- Drop a final newline byte, if present (what load is "allowed" to strip
from a chunk under the claim's trailing-newline-only normalization). -/
def dropNl (l : List Char) : List Char :=
  if l.getLast? = some '\n' then l.dropLast else l

/-- C2 as written, at one content: saving right after loading reproduces
the content up to a single trailing-newline normalization. -/
def roundtripClaimProp (content : List Char) : Prop :=
  editor_save_payload (editor_open_content content) = content
    ∨ editor_save_payload (editor_open_content content) = content ++ ['\n']
    ∨ content = editor_save_payload (editor_open_content content) ++ ['\n']

/-- C2, counterexample: the three-byte content `a`, CR, LF loads as the
single row `a` — the load loop strips *all* trailing CR bytes along with
the newline (kilo.c lines 694-696) — and saves back as `a`, LF.  The CR
is lost from the middle of the byte sequence, which no trailing-newline
normalization accounts for. -/
theorem roundtrip_counterexample : ¬ roundtripClaimProp ['a', '\r', '\n'] := by
  unfold roundtripClaimProp
  decide

/-- Contents on which the claim was meant: no line carries trailing
carriage returns, i.e. stripping a chunk removes exactly its final
newline byte (if any). -/
def goodContent (s : List Char) : Prop :=
  ∀ ch ∈ splitLines s, stripTrail ch = dropNl ch

lemma rows_to_string_nil : editor_rows_to_string [] = [] := rfl

lemma rows_to_string_cons (r : List Char) (rs : List (List Char)) :
    editor_rows_to_string (r :: rs) = r ++ '\n' :: editor_rows_to_string rs := by
  simp [editor_rows_to_string]

lemma dropNl_concat_newline (l : List Char) : dropNl (l ++ ['\n']) = l := by
  simp [dropNl, List.getLast?_concat]

lemma dropNl_reverse_cons {a : Char} (t : List Char) (ha : a ≠ '\n') :
    dropNl ((a :: t).reverse) = (a :: t).reverse := by
  simp [List.reverse_cons, dropNl, List.getLast?_concat, ha]

/-- Core induction for the round-trip: on content whose chunks strip to
exactly their newline-less text, re-joining the stripped chunks with
newlines gives back the content, possibly with one newline appended. -/
lemma splitAux_roundtrip (s : List Char) :
    ∀ acc : List Char, '\n' ∉ acc →
      (∀ ch ∈ splitLinesAux s acc, stripTrail ch = dropNl ch) →
      editor_rows_to_string ((splitLinesAux s acc).map stripTrail) = acc.reverse ++ s
        ∨ editor_rows_to_string ((splitLinesAux s acc).map stripTrail)
            = (acc.reverse ++ s) ++ ['\n'] := by
  induction s with
  | nil =>
    intro acc hnl hgood
    by_cases hacc : acc = ([] : List Char)
    · subst hacc
      left
      simp [splitLinesAux, rows_to_string_nil]
    · right
      simp only [splitLinesAux, if_neg hacc, List.map_cons, List.map_nil,
        rows_to_string_cons, rows_to_string_nil]
      have hmem : acc.reverse ∈ splitLinesAux ([] : List Char) acc := by
        simp [splitLinesAux, if_neg hacc]
      have hstrip := hgood _ hmem
      match acc, hacc with
      | a :: t, _ =>
        have ha : a ≠ '\n' := fun h => hnl (h ▸ List.mem_cons_self a t)
        rw [hstrip, dropNl_reverse_cons t ha]
        simp
  | cons c rest ih =>
    intro acc hnl hgood
    by_cases hc : c = '\n'
    · subst hc
      simp only [splitLinesAux, if_pos rfl, if_true, List.map_cons, rows_to_string_cons] at hgood ⊢
      have hhead : stripTrail (acc.reverse ++ ['\n']) = acc.reverse := by
        rw [hgood _ (List.mem_cons_self _ _), dropNl_concat_newline]
      rw [hhead]
      have hrest := ih [] (by simp)
        (fun ch hch => hgood ch (List.mem_cons_of_mem _ hch))
      rcases hrest with h | h <;> rw [h] <;> simp
    · simp only [splitLinesAux, if_neg hc] at hgood ⊢
      have hnl' : '\n' ∉ c :: acc := by
        intro h
        rcases List.mem_cons.mp h with h | h
        · exact hc h.symm
        · exact hnl h
      have := ih (c :: acc) hnl' hgood
      simpa [List.reverse_cons, List.append_assoc] using this

lemma map_chars_set (l : List Row) (n : Nat) (row row2 : Row)
    (hget : l[n]? = some row) (hc : row2.chars = row.chars) :
    (l.set n row2).map Row.chars = l.map Row.chars := by
  induction l generalizing n with
  | nil => simp at hget
  | cons x xs ih =>
    cases n with
    | zero =>
      simp only [List.getElem?_cons_zero, Option.some.injEq] at hget
      simp [List.set, hc, hget]
    | succ m =>
      simp only [List.getElem?_cons_succ] at hget
      simp [List.set, ih m hget]

/-- The update cascade never touches a row's raw text. -/
lemma updateRowFuel_map_chars (syn : Option SynDef) :
    ∀ (fuel nrows : Nat) (rows : List Row) (idx : Nat) (rows' : List Row),
      updateRowFuel syn fuel nrows rows idx = some rows' →
      rows'.map Row.chars = rows.map Row.chars := by
  intro fuel
  induction fuel with
  | zero => intro nrows rows idx rows' h; simp [updateRowFuel] at h
  | succ fuel ih =>
    intro nrows rows idx rows' h
    rw [updateRowFuel] at h
    cases hget : rows[idx]? with
    | none =>
      rw [hget] at h
      cases h
      rfl
    | some row =>
      rw [hget] at h
      cases hsyn : syn with
      | none =>
        subst hsyn
        simp only at h
        cases h
        exact map_chars_set _ _ _ _ hget rfl
      | some s =>
        subst hsyn
        simp only at h
        split at h
        · have := ih nrows _ _ _ h
          rw [this]
          exact map_chars_set _ _ _ _ hget rfl
        · cases h
          exact map_chars_set _ _ _ _ hget rfl

lemma editor_update_row_map_chars (syn : Option SynDef) (nrows : Nat) (rows : List Row)
    (idx : Nat) :
    (editor_update_row syn nrows rows idx).map Row.chars = rows.map Row.chars := by
  unfold editor_update_row
  cases h : updateRowFuel syn (rows.length - idx) nrows rows idx with
  | none => rfl
  | some rows' => exact updateRowFuel_map_chars syn _ _ _ _ _ h

/-- Loading keeps each line verbatim as the raw text of its row. -/
lemma editor_open_map_chars (syn : Option SynDef) (file : List Char)
    (lines : List (List Char)) :
    (editor_open syn file lines).rows.map Row.chars = lines := by
  suffices h : ∀ (st : EState),
      ((lines.foldl (fun st l => editor_insert_row st st.rows.length l) st).rows).map Row.chars
        = st.rows.map Row.chars ++ lines by
    have := h { rows := [], cursor_x := 0, cursor_y := 0, dirty := 0,
                file := some file, syn := syn, statusmsg := "" }
    simpa [editor_open] using this
  induction lines with
  | nil => intro st; simp
  | cons l rest ih =>
    intro st
    rw [List.foldl_cons, ih]
    have hstep : (editor_insert_row st st.rows.length l).rows.map Row.chars
        = st.rows.map Row.chars ++ [l] := by
      unfold editor_insert_row
      rw [if_neg (by omega)]
      simp only
      rw [editor_update_row_map_chars]
      rw [List.insertIdx_length_self]
      simp [newRow]
    rw [hstep]
    simp

/-- C2, amended: for content in which no line ends in carriage returns,
loading then immediately saving reproduces the bytes exactly, or appends
the single missing trailing newline.  (The unamended claim fails when a
line ends in CR: those bytes are stripped on load, see
`roundtrip_counterexample`.) -/
theorem roundtrip_amended (content : List Char) (h : goodContent content) :
    editor_save_payload (editor_open_content content) = content
      ∨ editor_save_payload (editor_open_content content) = content ++ ['\n'] := by
  have hchars : (editor_open_content content).rows.map Row.chars
      = (splitLines content).map stripTrail := by
    unfold editor_open_content
    exact editor_open_map_chars none [] _
  have hpay : editor_save_payload (editor_open_content content)
      = editor_rows_to_string ((splitLines content).map stripTrail) := by
    unfold editor_save_payload
    rw [hchars]
  rw [hpay]
  have := splitAux_roundtrip content [] (by simp) h
  simpa [splitLines] using this

/-- Witness for `roundtrip_amended` at the content `ab`, LF, `cd`. -/
theorem roundtrip_amended_witness :
    editor_save_payload (editor_open_content "ab\ncd".toList) = "ab\ncd".toList
      ∨ editor_save_payload (editor_open_content "ab\ncd".toList)
          = "ab\ncd".toList ++ ['\n'] :=
  roundtrip_amended "ab\ncd".toList (by
    intro ch hch
    fin_cases hch <;> decide)

/-! ## Termination of the scanning loop and of the cross-row cascade -/

lemma findKeyword_le (kws : List (List Char)) (rem : List Char) (klen : Nat) (tag : Hl)
    (h : findKeyword kws rem = some (klen, tag)) : klen ≤ rem.length := by
  induction kws with
  | nil => simp [findKeyword] at h
  | cons kw rest ih =>
    simp only [findKeyword] at h
    by_cases hk : kw.getLast? = some '|'
    · simp only [if_pos hk] at h
      split at h
      · rename_i hcond
        cases h
        exact (List.isPrefixOf_iff_prefix.mp hcond.1).length_le
      · exact ih h
    · simp only [if_neg hk] at h
      split at h
      · rename_i hcond
        cases h
        exact (List.isPrefixOf_iff_prefix.mp hcond.1).length_le
      · exact ih h

/-- Weight of the `prev_sep` flag in the loop measure. -/
def sepWeight (b : Bool) : Nat := if b then 1 else 0

lemma sepWeight_true : sepWeight true = 1 := rfl

lemma sepWeight_false : sepWeight false = 0 := rfl

lemma scanStep_done_len (syn : SynDef) (rem : List Char) (st : ScanState)
    (hl : List Hl) (b : Bool) (h : scanStep syn rem st = .done hl b) :
    hl.length = st.acc.length + rem.length := by
  cases rem with
  | nil =>
    simp only [scanStep] at h
    cases h
    simp
  | cons c rest =>
    simp only [scanStep] at h
    split at h
    · cases h; simp
    · split at h
      · split at h <;> cases h
      · split at h
        · cases h
        · split at h
          · split at h <;> cases h
          · split at h
            · cases h
            · split at h
              · cases h
              · split at h
                · split at h <;> cases h
                · cases h

/-- Every continuing loop iteration keeps the tag/byte balance (the tags
assigned plus the bytes left are constant) and strictly decreases the
loop measure `2 * remaining + prev_sep`. -/
lemma scanStep_cont_facts (syn : SynDef) (rem : List Char) (st : ScanState)
    (rem' : List Char) (st' : ScanState) (h : scanStep syn rem st = .cont rem' st') :
    st'.acc.length + rem'.length = st.acc.length + rem.length
      ∧ 2 * rem'.length + sepWeight st'.prev_sep < 2 * rem.length + sepWeight st.prev_sep := by
  obtain ⟨acc, ps, ic, q⟩ := st
  cases rem with
  | nil => simp only [scanStep] at h; cases h
  | cons c rest =>
    simp only [scanStep] at h
    split at h
    · cases h
    · split at h
      · split at h
        · rename_i hml hpre
          have hle : syn.mlce.length ≤ (c :: rest).length :=
            (List.isPrefixOf_iff_prefix.mp hpre).length_le
          have hpos : 0 < syn.mlce.length := List.length_pos.mpr hml.2.1
          cases h
          simp only [List.length_append, List.length_replicate, List.length_drop,
            List.length_cons, sepWeight] at *
          cases ps <;> simp <;> omega
        · cases h
          simp only [List.length_cons, sepWeight]
          cases ps <;> simp <;> omega
      · split at h
        · rename_i hml
          have hpre : syn.mlcs.isPrefixOf (c :: rest) = true := hml.2.2.2
          have hle : syn.mlcs.length ≤ (c :: rest).length :=
            (List.isPrefixOf_iff_prefix.mp hpre).length_le
          have hpos : 0 < syn.mlcs.length := List.length_pos.mpr hml.1
          cases h
          simp only [List.length_append, List.length_replicate, List.length_drop,
            List.length_cons, sepWeight] at *
          cases ps <;> simp <;> omega
        · split at h
          · split at h
            · rename_i hbs
              have hlen : 2 ≤ (c :: rest).length := by
                cases rest with
                | nil => exact absurd rfl hbs.2
                | cons d t => simp
              cases h
              simp only [List.length_append, List.length_cons, List.length_drop,
                sepWeight] at *
              cases ps <;> simp <;> omega
            · cases h
              simp only [List.length_cons, sepWeight]
              cases ps <;> simp <;> omega
          · split at h
            · cases h
              simp only [List.length_cons, sepWeight]
              cases ps <;> simp <;> omega
            · split at h
              · cases h
                simp only [List.length_cons, sepWeight]
                cases ps <;> simp <;> omega
              · split at h
                · split at h
                  · rename_i klen tag heq
                    have hle := findKeyword_le _ _ _ _ heq
                    have hps : ps = true := by assumption
                    cases h
                    simp only [List.length_append, List.length_replicate, List.length_drop,
                      List.length_cons, hps, sepWeight_true, sepWeight_false] at *
                    omega
                  · cases h
                    simp only [List.length_cons, sepWeight]
                    cases hsep : is_separator c <;> cases ps <;> simp <;> omega
                · cases h
                  simp only [List.length_cons, sepWeight]
                  cases hsep : is_separator c <;> cases ps <;> simp <;> omega

/-- The scanning loop terminates: fuel exceeding twice the remaining
length (plus the separator flag) is enough. -/
lemma scanRowFuel_isSome (syn : SynDef) :
    ∀ (fuel : Nat) (rem : List Char) (st : ScanState),
      2 * rem.length + sepWeight st.prev_sep < fuel →
      (scanRowFuel syn fuel rem st).isSome := by
  intro fuel
  induction fuel with
  | zero => intro rem st h; omega
  | succ fuel ih =>
    intro rem st h
    rw [scanRowFuel]
    cases hstep : scanStep syn rem st with
    | done hl b => simp
    | cont rem' st' =>
      simp only
      exact ih rem' st' (by
        have := (scanStep_cont_facts syn rem st rem' st' hstep).2
        omega)

/-- The scanning loop assigns exactly one tag per render byte. -/
lemma scanRowFuel_some_len (syn : SynDef) :
    ∀ (fuel : Nat) (rem : List Char) (st : ScanState) (hl : List Hl) (b : Bool),
      scanRowFuel syn fuel rem st = some (hl, b) →
      hl.length = st.acc.length + rem.length := by
  intro fuel
  induction fuel with
  | zero => intro rem st hl b h; simp [scanRowFuel] at h
  | succ fuel ih =>
    intro rem st hl b h
    rw [scanRowFuel] at h
    cases hstep : scanStep syn rem st with
    | done hl' b' =>
      rw [hstep] at h
      simp only [Option.some.injEq, Prod.mk.injEq] at h
      obtain ⟨h1, -⟩ := h
      have := scanStep_done_len syn rem st hl' b' hstep
      rw [h1] at this
      exact this
    | cont rem' st' =>
      rw [hstep] at h
      simp only at h
      have := ih rem' st' hl b h
      have hstep' := (scanStep_cont_facts syn rem st rem' st' hstep).1
      omega

/-- `scanRow` produces one highlight tag per render byte. -/
lemma scanRow_len (syn : SynDef) (render : List Char) (seed : Bool) :
    (scanRow syn render seed).1.length = render.length := by
  unfold scanRow
  cases h : scanRowFuel syn (2 * render.length + 2) render
      { acc := [], prev_sep := true, in_comment := seed, quote := none } with
  | none => simp
  | some p =>
    cases p with
    | mk hl2 b2 =>
      have := scanRowFuel_some_len syn _ _ _ hl2 b2 h
      simpa using this

/-- The cross-row cascade succeeds within `rows.length - idx` steps
whenever the starting index is valid and the row-count bound does not
exceed the real number of rows. -/
lemma updateRowFuel_isSome_doc (syn : Option SynDef) :
    ∀ (fuel nrows : Nat) (rows : List Row) (idx : Nat),
      idx < rows.length → nrows ≤ rows.length → rows.length - idx ≤ fuel →
      (updateRowFuel syn fuel nrows rows idx).isSome := by
  intro fuel
  induction fuel with
  | zero => intro nrows rows idx h1 h2 h3; omega
  | succ fuel ih =>
    intro nrows rows idx h1 h2 h3
    rw [updateRowFuel]
    cases hget : rows[idx]? with
    | none =>
      simp
    | some row =>
      simp only
      cases syn with
      | none => simp
      | some s =>
        simp only
        split
        · rename_i hcond
          refine ih nrows _ (idx + 1) ?_ ?_ ?_ <;>
            simp only [List.length_set] <;> omega
        · simp

/-- C3: re-deriving a row's highlighting terminates.  The chain of
cascading re-runs of `editor_update_row` on successive rows is bounded by
the document length: fuel `rows.length - idx` always suffices (for any
row-count bound `nrows` not exceeding the real number of rows, covering
both `editor_update_row` proper and the pre-increment call inside
`editor_insert_row`).  Moreover the recursive re-run happens only when
the row's `comment_open` flag changed: when the scan reproduces the old
flag, a single step (fuel 1) completes. -/
theorem update_cascade_terminates :
    (∀ (syn : Option SynDef) (nrows : Nat) (rows : List Row) (idx : Nat),
        idx < rows.length → nrows ≤ rows.length →
        (updateRowFuel syn (rows.length - idx) nrows rows idx).isSome)
      ∧ (∀ (s : SynDef) (nrows : Nat) (rows : List Row) (idx : Nat) (row : Row),
          rows[idx]? = some row →
          (scanRow s (renderOfChars row.chars) (seedOf rows idx)).2 = row.hl_open_comment →
          (updateRowFuel (some s) 1 nrows rows idx).isSome) := by
  constructor
  · intro syn nrows rows idx h1 h2
    exact updateRowFuel_isSome_doc syn _ nrows rows idx h1 h2 (Nat.le_refl _)
  · intro s nrows rows idx row hget hsame
    rw [updateRowFuel, hget]
    simp [hsame]

/-- Witness for `update_cascade_terminates` on one-row documents. -/
theorem update_cascade_terminates_witness :
    (updateRowFuel none (([newRow []] : List Row).length - 0) 1 [newRow []] 0).isSome
      ∧ (updateRowFuel (some cSynDef) 1 0 [newRow ['x']] 0).isSome :=
  ⟨update_cascade_terminates.1 none 1 [newRow []] 0 (by decide) (by decide),
   update_cascade_terminates.2 cSynDef 0 [newRow ['x']] 0 (newRow ['x'])
     (by decide) (by decide)⟩

/-! ## C8: tab expansion and the cursor-column round trip -/

lemma nextRx_lt (c : Char) (rx : Nat) : rx < nextRx c rx := by
  unfold nextRx
  split <;> omega

lemma cxToRxAux_le (chars : List Char) :
    ∀ (n rx : Nat), rx ≤ cxToRxAux chars n rx := by
  induction chars with
  | nil => intro n rx; cases n <;> simp [cxToRxAux]
  | cons c rest ih =>
    intro n rx
    cases n with
    | zero => simp [cxToRxAux]
    | succ m =>
      calc rx ≤ nextRx c rx := Nat.le_of_lt (nextRx_lt c rx)
        _ ≤ cxToRxAux rest m (nextRx c rx) := ih m (nextRx c rx)
        _ = cxToRxAux (c :: rest) (m + 1) rx := rfl

lemma rx_cx_roundtrip_aux (chars : List Char) :
    ∀ (n cx0 cur : Nat), n ≤ chars.length →
      rxToCxAux chars cx0 cur (cxToRxAux chars n cur) = cx0 + n := by
  induction chars with
  | nil =>
    intro n cx0 cur hn
    have hz : n = 0 := by simpa using hn
    subst hz
    simp [cxToRxAux, rxToCxAux]
  | cons c rest ih =>
    intro n cx0 cur hn
    cases n with
    | zero =>
      have h1 : cxToRxAux (c :: rest) 0 cur = cur := rfl
      rw [h1, rxToCxAux]
      rw [if_pos (nextRx_lt c cur)]
      omega
    | succ m =>
      have h1 : cxToRxAux (c :: rest) (m + 1) cur = cxToRxAux rest m (nextRx c cur) := rfl
      rw [h1, rxToCxAux]
      rw [if_neg (by
        have := cxToRxAux_le rest m (nextRx c cur)
        omega)]
      rw [ih m (cx0 + 1) (nextRx c cur) (by simpa using hn)]
      omega

lemma render_tabs_aux :
    ∀ (n : Nat) (acc : List Char), acc.length % 8 = 0 →
      (List.foldl (fun acc c => if c = '\t' then padTab acc else acc ++ [c]) acc
          (List.replicate n '\t')).length = acc.length + 8 * n := by
  intro n
  induction n with
  | zero => intro acc h; simp
  | succ m ih =>
    intro acc h
    rw [List.replicate_succ, List.foldl_cons, if_pos rfl]
    have hpad : (padTab acc).length = acc.length + 8 := by
      simp only [padTab, List.length_append, List.length_replicate, List.length_cons,
        List.length_nil]
      omega
    rw [ih (padTab acc) (by omega)]
    omega

/-- C8: a row of `n` tab bytes renders to exactly `8 * n` spaces (so every
tab's expansion ends at a render column that is a multiple of 8), and for
every row and every cursor byte offset `x` within the row,
`rx_to_cx (cx_to_rx x) = x`. -/
theorem tab_expansion_roundtrip :
    (∀ n : Nat, (renderOfChars (List.replicate n '\t')).length = 8 * n
        ∧ (renderOfChars (List.replicate n '\t')).length % 8 = 0)
      ∧ ∀ (chars : List Char) (x : Nat), x ≤ chars.length →
          editor_row_rx_to_cx chars (editor_row_cx_to_rx chars x) = x := by
  constructor
  · intro n
    have := render_tabs_aux n [] (by simp)
    unfold renderOfChars
    constructor
    · simpa using this
    · simp only at this
      simp [this]
  · intro chars x hx
    unfold editor_row_rx_to_cx editor_row_cx_to_rx
    simpa using rx_cx_roundtrip_aux chars x 0 0 hx

/-- Witness for `tab_expansion_roundtrip` at two tabs and the row
`a TAB b` with cursor offset 2. -/
theorem tab_expansion_roundtrip_witness :
    ((renderOfChars (List.replicate 2 '\t')).length = 8 * 2
        ∧ (renderOfChars (List.replicate 2 '\t')).length % 8 = 0)
      ∧ editor_row_rx_to_cx "a\tb".toList (editor_row_cx_to_rx "a\tb".toList 2) = 2 :=
  ⟨tab_expansion_roundtrip.1 2,
   tab_expansion_roundtrip.2 "a\tb".toList 2 (by decide)⟩

/-! ## C9: the per-row length invariants -/

/-- The settled-row invariant of the specification:
`len(render) >= len(raw)` and `len(highlight) == len(render)`. -/
def RowInv (r : Row) : Prop :=
  r.chars.length ≤ r.render.length ∧ r.highlight.length = r.render.length

instance (r : Row) : Decidable (RowInv r) := by
  unfold RowInv
  infer_instance

/-- Every row of the document satisfies the settled-row invariant. -/
def DocInv (rows : List Row) : Prop := ∀ r ∈ rows, RowInv r

instance (rows : List Row) : Decidable (DocInv rows) := by
  unfold DocInv
  infer_instance

/-- The invariant at every position (equivalent to `DocInv`). -/
def DocInvP (rows : List Row) : Prop :=
  ∀ (i : Nat) (r : Row), rows[i]? = some r → RowInv r

/-- The invariant at every position except possibly `idx` (the row about
to be updated). -/
def DocInvX (rows : List Row) (idx : Nat) : Prop :=
  ∀ (i : Nat) (r : Row), i ≠ idx → rows[i]? = some r → RowInv r

lemma docInv_of_P {rows : List Row} (h : DocInvP rows) : DocInv rows := by
  intro r hr
  obtain ⟨n, hn⟩ := List.getElem?_of_mem hr
  exact h n r hn

lemma docInvX_of_inv {rows : List Row} (h : DocInv rows) (idx : Nat) : DocInvX rows idx :=
  fun _ r _ hget => h r (List.getElem?_mem hget)

lemma renderOfChars_len (chars : List Char) :
    chars.length ≤ (renderOfChars chars).length := by
  suffices h : ∀ (l acc : List Char),
      acc.length + l.length ≤
        (List.foldl (fun acc c => if c = '\t' then padTab acc else acc ++ [c]) acc l).length by
    simpa [renderOfChars] using h chars []
  intro l
  induction l with
  | nil => intro acc; simp
  | cons c rest ih =>
    intro acc
    rw [List.foldl_cons]
    have hstep : acc.length + 1 ≤
        (if c = '\t' then padTab acc else acc ++ [c]).length := by
      split
      · simp only [padTab, List.length_append, List.length_replicate, List.length_cons,
          List.length_nil]
        omega
      · simp
    have := ih (if c = '\t' then padTab acc else acc ++ [c])
    simp only [List.length_cons]
    omega

/-- The row stored by an update step is settled. -/
lemma rowInv_updated (row : Row) (render : List Char) (hl : List Hl) (b : Bool)
    (hr : render = renderOfChars row.chars) (hh : hl.length = render.length) :
    RowInv { row with render := render, highlight := hl, hl_open_comment := b } := by
  constructor
  · simpa [hr] using renderOfChars_len row.chars
  · simpa using hh

/-- The cascade leaves every row settled: rows it touches are freshly
re-derived, rows it skips were settled before. -/
lemma updateRowFuel_inv (syn : Option SynDef) :
    ∀ (fuel nrows : Nat) (rows : List Row) (idx : Nat) (rows' : List Row),
      DocInvX rows idx → updateRowFuel syn fuel nrows rows idx = some rows' →
      DocInvP rows' := by
  intro fuel
  induction fuel with
  | zero => intro nrows rows idx rows' hX heq; simp [updateRowFuel] at heq
  | succ fuel ih =>
    intro nrows rows idx rows' hX heq
    rw [updateRowFuel] at heq
    cases hget : rows[idx]? with
    | none =>
      rw [hget] at heq
      cases heq
      intro i r hir
      by_cases hi : i = idx
      · subst hi
        rw [hget] at hir
        cases hir
      · exact hX i r hi hir
    | some row =>
      rw [hget] at heq
      have hlt : idx < rows.length := (List.getElem?_eq_some.mp hget).1
      cases syn with
      | none =>
        simp only at heq
        cases heq
        intro i r hir
        by_cases hi : i = idx
        · subst hi
          rw [List.getElem?_set_self (by simpa using hlt)] at hir
          cases hir
          exact rowInv_updated row _ _ row.hl_open_comment rfl (by simp)
        · rw [List.getElem?_set_ne (fun h => hi h.symm)] at hir
          exact hX i r hi hir
      | some s =>
        simp only at heq
        have hrow2 : RowInv
            { row with render := renderOfChars row.chars,
                       highlight := (scanRow s (renderOfChars row.chars) (seedOf rows idx)).1,
                       hl_open_comment := (scanRow s (renderOfChars row.chars) (seedOf rows idx)).2 } :=
          rowInv_updated row _ _ _ rfl (scanRow_len s _ _)
        split at heq
        · refine ih nrows _ (idx + 1) rows' ?_ heq
          intro j r hj hjr
          by_cases hji : j = idx
          · subst hji
            rw [List.getElem?_set_self (by simpa using hlt)] at hjr
            cases hjr
            exact hrow2
          · rw [List.getElem?_set_ne (fun h => hji h.symm)] at hjr
            exact hX j r hji hjr
        · cases heq
          intro i r hir
          by_cases hi : i = idx
          · subst hi
            rw [List.getElem?_set_self (by simpa using hlt)] at hir
            cases hir
            exact hrow2
          · rw [List.getElem?_set_ne (fun h => hi h.symm)] at hir
            exact hX i r hi hir

/-- `editor_update_row` restores the full invariant from the
all-but-one invariant. -/
lemma editor_update_row_inv (syn : Option SynDef) (nrows : Nat) (rows : List Row) (idx : Nat)
    (hX : DocInvX rows idx) (hn : nrows ≤ rows.length) :
    DocInv (editor_update_row syn nrows rows idx) := by
  unfold editor_update_row
  by_cases hlt : idx < rows.length
  · have hsome := updateRowFuel_isSome_doc syn (rows.length - idx) nrows rows idx hlt hn
      (Nat.le_refl _)
    cases heq : updateRowFuel syn (rows.length - idx) nrows rows idx with
    | none => rw [heq] at hsome; cases hsome
    | some rows' =>
      simp only [Option.getD_some]
      exact docInv_of_P (updateRowFuel_inv syn _ nrows rows idx rows' hX heq)
  · have hz : rows.length - idx = 0 := by omega
    rw [hz]
    simp only [updateRowFuel, Option.getD_none]
    intro r hr
    obtain ⟨n, hn'⟩ := List.getElem?_of_mem hr
    have hni : n ≠ idx := by
      intro h
      subst h
      have := (List.getElem?_eq_some.mp hn').1
      omega
    exact hX n r hni hn'

/-- A row read from `insertIdx` at any position other than the insertion
point was already in the list. -/
lemma insertIdx_getElem?_ne (a : Row) :
    ∀ (l : List Row) (p i : Nat) (r : Row), i ≠ p → (l.insertIdx p a)[i]? = some r → r ∈ l := by
  intro l
  induction l with
  | nil =>
    intro p i r hip hget
    cases p with
    | zero =>
      cases i with
      | zero => exact absurd rfl hip
      | succ j => simp [List.insertIdx_zero] at hget
    | succ q => simp [List.insertIdx_succ_nil] at hget
  | cons x xs ih =>
    intro p i r hip hget
    cases p with
    | zero =>
      cases i with
      | zero => exact absurd rfl hip
      | succ j =>
        rw [List.insertIdx_zero, List.getElem?_cons_succ] at hget
        exact List.getElem?_mem hget
    | succ q =>
      rw [List.insertIdx_succ_cons] at hget
      cases i with
      | zero =>
        rw [List.getElem?_cons_zero] at hget
        cases hget
        exact List.mem_cons_self x xs
      | succ j =>
        rw [List.getElem?_cons_succ] at hget
        exact List.mem_cons_of_mem x (ih q j r (fun h => hip (by omega)) hget)

lemma inv_insert_row (st : EState) (p : Nat) (s : List Char) (h : DocInv st.rows) :
    DocInv (editor_insert_row st p s).rows := by
  unfold editor_insert_row
  split
  · exact h
  · rename_i hle
    simp only
    refine editor_update_row_inv st.syn st.rows.length _ p ?_ ?_
    · intro i r hip hget
      exact h r (insertIdx_getElem?_ne (newRow s) st.rows p i r hip hget)
    · rw [List.length_insertIdx p _ (by omega)]
      omega

lemma inv_del_row (st : EState) (p : Nat) (h : DocInv st.rows) :
    DocInv (editor_del_row st p).rows := by
  unfold editor_del_row
  split
  · exact h
  · intro r hr
    exact h r (List.eraseIdx_subset st.rows p hr)

/-- Common shape of the three single-row text mutations: replace row `y`
by a row with new raw text, then update it. -/
lemma inv_set_then_update (syn : Option SynDef) (rows : List Row) (y : Nat) (row2 : Row)
    (h : DocInv rows) :
    DocInv (editor_update_row syn (rows.set y row2).length (rows.set y row2) y) := by
  refine editor_update_row_inv syn _ _ y ?_ (Nat.le_refl _)
  intro i r hiy hget
  rw [List.getElem?_set_ne (fun hh => hiy hh.symm)] at hget
  exact h r (List.getElem?_mem hget)

lemma inv_row_append_string (st : EState) (y : Nat) (s : List Char) (h : DocInv st.rows) :
    DocInv (editor_row_append_string st y s).rows := by
  unfold editor_row_append_string
  split
  · exact h
  · exact inv_set_then_update st.syn st.rows y _ h

lemma inv_row_insert_char (st : EState) (y p : Nat) (c : Char) (h : DocInv st.rows) :
    DocInv (editor_row_insert_char st y p c).rows := by
  unfold editor_row_insert_char
  split
  · exact h
  · exact inv_set_then_update st.syn st.rows y _ h

lemma inv_row_del_char (st : EState) (y p : Nat) (h : DocInv st.rows) :
    DocInv (editor_row_del_char st y p).rows := by
  unfold editor_row_del_char
  split
  · exact h
  · split
    · exact h
    · exact inv_set_then_update st.syn st.rows y _ h

lemma inv_insert_char (st : EState) (c : Char) (h : DocInv st.rows) :
    DocInv (editor_insert_char st c).rows := by
  unfold editor_insert_char
  exact inv_row_insert_char _ _ _ _ (by
    split
    · exact inv_insert_row st st.rows.length [] h
    · exact h)

lemma inv_newlineFinish (st1 : EState) (y x : Nat) (h : DocInv st1.rows) :
    DocInv (newlineFinish st1 y x).rows := by
  unfold newlineFinish
  split
  · exact h
  · exact inv_set_then_update _ _ y _ h

lemma inv_insert_newline (st : EState) (h : DocInv st.rows) :
    DocInv (editor_insert_newline st).rows := by
  unfold editor_insert_newline
  split
  · exact inv_insert_row st st.cursor_y [] h
  · split
    · exact h
    · rename_i row heq
      exact inv_newlineFinish _ _ _
        (inv_insert_row st (st.cursor_y + 1) (row.chars.drop st.cursor_x) h)

lemma inv_del_char (st : EState) (h : DocInv st.rows) :
    DocInv (editor_del_char st).rows := by
  unfold editor_del_char
  split
  · exact h
  · split
    · exact h
    · split
      · exact inv_row_del_char st st.cursor_y (st.cursor_x - 1) h
      · split
        · exact inv_del_row _ _ (inv_row_append_string _ _ _ h)
        · exact h

/-- C9: after each document mutation every row again satisfies the
settled-row invariants `len(render) >= len(raw)` and
`len(highlight) == len(render)`. -/
theorem row_invariants_preserved :
    (∀ (st : EState) (p : Nat) (s : List Char), DocInv st.rows →
        DocInv (editor_insert_row st p s).rows)
      ∧ (∀ (st : EState) (p : Nat), DocInv st.rows → DocInv (editor_del_row st p).rows)
      ∧ (∀ (st : EState) (y : Nat) (s : List Char), DocInv st.rows →
          DocInv (editor_row_append_string st y s).rows)
      ∧ (∀ (st : EState) (y p : Nat) (c : Char), DocInv st.rows →
          DocInv (editor_row_insert_char st y p c).rows)
      ∧ (∀ (st : EState) (y p : Nat), DocInv st.rows → DocInv (editor_row_del_char st y p).rows)
      ∧ (∀ (st : EState) (c : Char), DocInv st.rows → DocInv (editor_insert_char st c).rows)
      ∧ (∀ st : EState, DocInv st.rows → DocInv (editor_insert_newline st).rows)
      ∧ (∀ st : EState, DocInv st.rows → DocInv (editor_del_char st).rows) :=
  ⟨inv_insert_row, inv_del_row, inv_row_append_string, inv_row_insert_char,
   inv_row_del_char, inv_insert_char, inv_insert_newline, inv_del_char⟩

/-- A one-row state used to witness the invariant-preservation theorem. -/
def invWitnessState : EState :=
  editor_open (some cSynDef) "t.c".toList ["int a;".toList]

/-- Witness for `row_invariants_preserved`: all eight mutations applied
to a concrete loaded document. -/
theorem row_invariants_preserved_witness :
    DocInv (editor_insert_row invWitnessState 1 "x = 1;".toList).rows
      ∧ DocInv (editor_del_row invWitnessState 0).rows
      ∧ DocInv (editor_row_append_string invWitnessState 0 "y".toList).rows
      ∧ DocInv (editor_row_insert_char invWitnessState 0 2 'z').rows
      ∧ DocInv (editor_row_del_char invWitnessState 0 0).rows
      ∧ DocInv (editor_insert_char invWitnessState 'w').rows
      ∧ DocInv (editor_insert_newline invWitnessState).rows
      ∧ DocInv (editor_del_char invWitnessState).rows :=
  ⟨row_invariants_preserved.1 invWitnessState 1 "x = 1;".toList (by decide),
   row_invariants_preserved.2.1 invWitnessState 0 (by decide),
   row_invariants_preserved.2.2.1 invWitnessState 0 "y".toList (by decide),
   row_invariants_preserved.2.2.2.1 invWitnessState 0 2 'z' (by decide),
   row_invariants_preserved.2.2.2.2.1 invWitnessState 0 0 (by decide),
   row_invariants_preserved.2.2.2.2.2.1 invWitnessState 'w' (by decide),
   row_invariants_preserved.2.2.2.2.2.2.1 invWitnessState (by decide),
   row_invariants_preserved.2.2.2.2.2.2.2 invWitnessState (by decide)⟩

/-! ## C6: dirty tracking and save failure -/

lemma editor_update_row_length (syn : Option SynDef) (nrows : Nat) (rows : List Row)
    (idx : Nat) : (editor_update_row syn nrows rows idx).length = rows.length := by
  have h := editor_update_row_map_chars syn nrows rows idx
  have := congrArg List.length h
  simpa using this

lemma dirty_insert_row (st : EState) (pos : Nat) (s : List Char)
    (h : pos ≤ st.rows.length) : (editor_insert_row st pos s).dirty = st.dirty + 1 := by
  unfold editor_insert_row
  rw [if_neg (by omega)]

lemma dirty_del_row (st : EState) (pos : Nat) (h : pos < st.rows.length) :
    (editor_del_row st pos).dirty = st.dirty + 1 := by
  unfold editor_del_row
  rw [if_neg (by omega)]

lemma dirty_row_append_string (st : EState) (y : Nat) (s : List Char) (row : Row)
    (hget : st.rows[y]? = some row) :
    (editor_row_append_string st y s).dirty = st.dirty + 1 := by
  unfold editor_row_append_string
  rw [hget]

lemma dirty_row_insert_char (st : EState) (y pos : Nat) (c : Char) (row : Row)
    (hget : st.rows[y]? = some row) :
    (editor_row_insert_char st y pos c).dirty = st.dirty + 1 := by
  unfold editor_row_insert_char
  rw [hget]

lemma dirty_row_del_char (st : EState) (y pos : Nat) (row : Row)
    (hget : st.rows[y]? = some row) (hlt : pos < row.chars.length) :
    (editor_row_del_char st y pos).dirty = st.dirty + 1 := by
  unfold editor_row_del_char
  rw [hget]
  simp only
  rw [if_neg (by omega)]

lemma dirty_le_insert_row (st : EState) (pos : Nat) (s : List Char) :
    st.dirty ≤ (editor_insert_row st pos s).dirty := by
  unfold editor_insert_row
  split <;> simp

lemma dirty_le_row_insert_char (st : EState) (y pos : Nat) (c : Char) :
    st.dirty ≤ (editor_row_insert_char st y pos c).dirty := by
  unfold editor_row_insert_char
  split <;> simp

lemma rows_append_string_length (st : EState) (y : Nat) (s : List Char) (row : Row)
    (hget : st.rows[y]? = some row) :
    (editor_row_append_string st y s).rows.length = st.rows.length := by
  unfold editor_row_append_string
  rw [hget]
  simp only
  rw [editor_update_row_length]
  simp

lemma dirty_newlineFinish (st1 : EState) (y x : Nat) :
    (newlineFinish st1 y x).dirty = st1.dirty := by
  unfold newlineFinish
  split <;> rfl

/-- C6: the dirty counter is zero right after a load, nonzero after every
insert/delete content mutation (each stated under the condition that makes
the C code actually mutate), zero again right after a successful save; and
a save failing at open, truncate, or write leaves the rows and the dirty
counter untouched, producing only a status message. -/
theorem dirty_tracking :
    (∀ (syn : Option SynDef) (file : List Char) (lines : List (List Char)),
        (editor_open syn file lines).dirty = 0)
      ∧ (∀ (st : EState) (pos : Nat) (s : List Char), pos ≤ st.rows.length →
          (editor_insert_row st pos s).dirty ≠ 0)
      ∧ (∀ (st : EState) (pos : Nat), pos < st.rows.length →
          (editor_del_row st pos).dirty ≠ 0)
      ∧ (∀ (st : EState) (y : Nat) (s : List Char) (row : Row), st.rows[y]? = some row →
          (editor_row_append_string st y s).dirty ≠ 0)
      ∧ (∀ (st : EState) (y pos : Nat) (c : Char) (row : Row), st.rows[y]? = some row →
          (editor_row_insert_char st y pos c).dirty ≠ 0)
      ∧ (∀ (st : EState) (y pos : Nat) (row : Row), st.rows[y]? = some row →
          pos < row.chars.length → (editor_row_del_char st y pos).dirty ≠ 0)
      ∧ (∀ (st : EState) (c : Char), st.cursor_y ≤ st.rows.length →
          (editor_insert_char st c).dirty ≠ 0)
      ∧ (∀ st : EState,
          (st.cursor_x = 0 ∧ st.cursor_y ≤ st.rows.length)
            ∨ (st.cursor_x ≠ 0 ∧ st.cursor_y < st.rows.length) →
          (editor_insert_newline st).dirty ≠ 0)
      ∧ (∀ (st : EState) (row : Row), st.rows[st.cursor_y]? = some row →
          st.cursor_x ≤ row.chars.length → (st.cursor_x ≠ 0 ∨ st.cursor_y ≠ 0) →
          (editor_del_char st).dirty ≠ 0)
      ∧ (∀ st : EState, st.file ≠ none → (editor_save st SaveOutcome.success).dirty = 0)
      ∧ (∀ (st : EState) (out : SaveOutcome), out ≠ SaveOutcome.success →
          (editor_save st out).rows = st.rows ∧ (editor_save st out).dirty = st.dirty) := by
  refine ⟨?_, ?_, ?_, ?_, ?_, ?_, ?_, ?_, ?_, ?_, ?_⟩
  · intro syn file lines
    simp [editor_open]
  · intro st pos s h
    rw [dirty_insert_row st pos s h]
    omega
  · intro st pos h
    rw [dirty_del_row st pos h]
    omega
  · intro st y s row hget
    rw [dirty_row_append_string st y s row hget]
    omega
  · intro st y pos c row hget
    rw [dirty_row_insert_char st y pos c row hget]
    omega
  · intro st y pos row hget hlt
    rw [dirty_row_del_char st y pos row hget hlt]
    omega
  · intro st c hy
    unfold editor_insert_char
    simp only
    by_cases hcase : st.cursor_y = st.rows.length
    · rw [if_pos hcase]
      have h1 := dirty_insert_row st st.rows.length [] (Nat.le_refl _)
      have h2 := dirty_le_row_insert_char (editor_insert_row st st.rows.length [])
        (editor_insert_row st st.rows.length []).cursor_y
        (editor_insert_row st st.rows.length []).cursor_x c
      omega
    · rw [if_neg hcase]
      have hlt : st.cursor_y < st.rows.length := by omega
      have hget : st.rows[st.cursor_y]? = some (st.rows.get ⟨st.cursor_y, hlt⟩) :=
        List.getElem?_eq_getElem hlt
      rw [dirty_row_insert_char st st.cursor_y st.cursor_x c _ hget]
      omega
  · intro st hcond
    unfold editor_insert_newline
    rcases hcond with ⟨hx, hy⟩ | ⟨hx, hy⟩
    · rw [if_pos hx]
      simp only
      rw [dirty_insert_row st st.cursor_y [] hy]
      omega
    · rw [if_neg hx]
      have hget : st.rows[st.cursor_y]? = some (st.rows.get ⟨st.cursor_y, hy⟩) :=
        List.getElem?_eq_getElem hy
      rw [hget]
      simp only
      rw [dirty_newlineFinish]
      rw [dirty_insert_row st (st.cursor_y + 1) _ (by omega)]
      omega
  · intro st row hget hxle hor
    have hylt : st.cursor_y < st.rows.length := (List.getElem?_eq_some.mp hget).1
    unfold editor_del_char
    rw [if_neg (by omega)]
    by_cases hx0 : st.cursor_x = 0
    · have hy0 : st.cursor_y ≠ 0 := by
        rcases hor with h | h
        · exact absurd hx0 h
        · exact h
      rw [if_neg (fun hand => hy0 hand.2)]
      rw [if_neg (by omega)]
      have hprev : st.cursor_y - 1 < st.rows.length := by omega
      have hget2 : st.rows[st.cursor_y - 1]? = some (st.rows.get ⟨st.cursor_y - 1, hprev⟩) :=
        List.getElem?_eq_getElem hprev
      rw [hget, hget2]
      show (editor_del_row
          (editor_row_append_string
            { st with cursor_x := (st.rows.get ⟨st.cursor_y - 1, hprev⟩).chars.length }
            (st.cursor_y - 1) row.chars)
          st.cursor_y).dirty ≠ 0
      have hd2 : (editor_row_append_string
          { st with cursor_x := (st.rows.get ⟨st.cursor_y - 1, hprev⟩).chars.length }
          (st.cursor_y - 1) row.chars).dirty = st.dirty + 1 :=
        dirty_row_append_string _ _ _ _ hget2
      have hlen2 : (editor_row_append_string
          { st with cursor_x := (st.rows.get ⟨st.cursor_y - 1, hprev⟩).chars.length }
          (st.cursor_y - 1) row.chars).rows.length = st.rows.length :=
        rows_append_string_length _ _ _ _ hget2
      have hd3 := dirty_del_row (editor_row_append_string
          { st with cursor_x := (st.rows.get ⟨st.cursor_y - 1, hprev⟩).chars.length }
          (st.cursor_y - 1) row.chars) st.cursor_y (by
        rw [hlen2]
        omega)
      omega
    · rw [if_neg (fun hand => hx0 hand.1)]
      rw [if_pos (by omega)]
      show (editor_row_del_char st st.cursor_y (st.cursor_x - 1)).dirty ≠ 0
      have hd := dirty_row_del_char st st.cursor_y (st.cursor_x - 1) row hget (by omega)
      omega
  · intro st hf
    cases hfile : st.file with
    | none => exact absurd hfile hf
    | some f =>
      unfold editor_save
      rw [hfile]
  · intro st out hout
    unfold editor_save
    cases hfile : st.file with
    | none => exact ⟨rfl, rfl⟩
    | some f =>
      cases out with
      | success => exact absurd rfl hout
      | openFail => exact ⟨rfl, rfl⟩
      | truncateFail => exact ⟨rfl, rfl⟩
      | writeFail => exact ⟨rfl, rfl⟩

/-- Witness for `dirty_tracking` on the one-row loaded document. -/
theorem dirty_tracking_witness :
    (editor_open none [] []).dirty = 0
      ∧ (editor_insert_row invWitnessState 1 "x".toList).dirty ≠ 0
      ∧ (editor_del_row invWitnessState 0).dirty ≠ 0
      ∧ (editor_row_append_string invWitnessState 0 "y".toList).dirty ≠ 0
      ∧ (editor_row_insert_char invWitnessState 0 0 'z').dirty ≠ 0
      ∧ (editor_row_del_char invWitnessState 0 0).dirty ≠ 0
      ∧ (editor_insert_char invWitnessState 'w').dirty ≠ 0
      ∧ (editor_insert_newline invWitnessState).dirty ≠ 0
      ∧ (editor_del_char { invWitnessState with cursor_x := 1 }).dirty ≠ 0
      ∧ (editor_save invWitnessState SaveOutcome.success).dirty = 0
      ∧ ((editor_save invWitnessState SaveOutcome.openFail).rows = invWitnessState.rows
          ∧ (editor_save invWitnessState SaveOutcome.openFail).dirty = invWitnessState.dirty) :=
  ⟨dirty_tracking.1 none [] [],
   dirty_tracking.2.1 invWitnessState 1 "x".toList (by decide),
   dirty_tracking.2.2.1 invWitnessState 0 (by decide),
   dirty_tracking.2.2.2.1 invWitnessState 0 "y".toList (invWitnessState.rows.getD 0 (newRow []))
     (by decide),
   dirty_tracking.2.2.2.2.1 invWitnessState 0 0 'z' (invWitnessState.rows.getD 0 (newRow []))
     (by decide),
   dirty_tracking.2.2.2.2.2.1 invWitnessState 0 0 (invWitnessState.rows.getD 0 (newRow []))
     (by decide) (by decide),
   dirty_tracking.2.2.2.2.2.2.1 invWitnessState 'w' (by decide),
   dirty_tracking.2.2.2.2.2.2.2.1 invWitnessState (Or.inl (by decide)),
   dirty_tracking.2.2.2.2.2.2.2.2.1 { invWitnessState with cursor_x := 1 }
     ({ invWitnessState with cursor_x := 1 }.rows.getD 0 (newRow []))
     (by decide) (by decide) (Or.inl (by decide)),
   dirty_tracking.2.2.2.2.2.2.2.2.2.1 invWitnessState (by decide),
   dirty_tracking.2.2.2.2.2.2.2.2.2.2 invWitnessState SaveOutcome.openFail (by decide)⟩

/-! ## C7: the key decoder -/

set_option maxHeartbeats 2000000 in
/-- C7: every call of the key decoder yields exactly one logical key
event.  A non-escape first byte is returned verbatim; the result is always
either the first byte itself, a bare escape, or a member of the closed
special-key set; after an escape first byte, a timeout on either follow-up
read yields a bare escape, and so does any sequence outside the three
recognized families. -/
theorem read_key_events (c : Char) (r0 r1 r2 : Option Char) :
    (c ≠ esc → editor_read_key c r0 r1 r2 = Key.ch c)
      ∧ (editor_read_key c r0 r1 r2 = Key.ch c ∨ editor_read_key c r0 r1 r2 = Key.ch esc
          ∨ editor_read_key c r0 r1 r2 ∈ [Key.arrowUp, Key.arrowDown, Key.arrowLeft,
              Key.arrowRight, Key.pageUp, Key.pageDown, Key.homeKey, Key.endKey, Key.delKey])
      ∧ (c = esc → r0 = none ∨ r1 = none → editor_read_key c r0 r1 r2 = Key.ch esc)
      ∧ (c = esc → recognizedFamily r0 r1 r2 = false →
          editor_read_key c r0 r1 r2 = Key.ch esc) := by
  refine ⟨?_, ?_, ?_, ?_⟩
  · intro h
    unfold editor_read_key
    rw [if_neg h]
  · obtain ⟨k, hk⟩ : ∃ k, editor_read_key c r0 r1 r2 = k := ⟨_, rfl⟩
    rw [hk]
    unfold editor_read_key at hk
    by_cases hc : c = esc
    · rw [if_pos hc] at hk
      cases r0 with
      | none =>
        subst hk
        right; left; rfl
      | some s0 =>
        cases r1 with
        | none =>
          subst hk
          right; left; rfl
        | some s1 =>
          cases r2 with
          | none =>
            (repeat' split at hk) <;> subst hk <;>
              first
                | (left; rfl)
                | (right; left; rfl)
                | (right; right; decide)
          | some s2 =>
            (repeat' split at hk) <;> subst hk <;>
              first
                | (left; rfl)
                | (right; left; rfl)
                | (right; right; decide)
    · rw [if_neg hc] at hk
      subst hk
      left; rfl
  · intro hc hnone
    unfold editor_read_key
    rw [if_pos hc]
    rcases hnone with h | h
    · subst h
      rfl
    · subst h
      cases r0 <;> rfl
  · intro hc hfam
    unfold editor_read_key
    rw [if_pos hc]
    cases r0 with
    | none => rfl
    | some s0 =>
      cases r1 with
      | none => rfl
      | some s1 =>
        simp only [recognizedFamily] at hfam
        simp only
        by_cases hs0b : s0 = '['
        · subst hs0b
          by_cases hdig : '0' ≤ s1 ∧ s1 ≤ '9'
          · rw [if_pos rfl, if_pos hdig]
            cases r2 with
            | none => rfl
            | some s2 =>
              show (if s2 = '~' then _ else Key.ch esc) = Key.ch esc
              by_cases hs2 : s2 = '~'
              · exfalso
                subst hs2
                simp [hdig.1, hdig.2] at hfam
              · rw [if_neg hs2]
          · rw [if_pos rfl, if_neg hdig]
            have halpha : s1.isAlpha = false := by
              cases ha : s1.isAlpha
              · rfl
              · exfalso
                simp [ha] at hfam
            by_cases hA : s1 = 'A'
            · exfalso
              subst hA
              exact absurd halpha (by decide)
            · rw [if_neg hA]
              by_cases hB : s1 = 'B'
              · exfalso
                subst hB
                exact absurd halpha (by decide)
              · rw [if_neg hB]
                by_cases hD : s1 = 'D'
                · exfalso
                  subst hD
                  exact absurd halpha (by decide)
                · rw [if_neg hD]
                  by_cases hC : s1 = 'C'
                  · exfalso
                    subst hC
                    exact absurd halpha (by decide)
                  · rw [if_neg hC]
                    by_cases hH : s1 = 'H'
                    · exfalso
                      subst hH
                      exact absurd halpha (by decide)
                    · rw [if_neg hH]
                      by_cases hF : s1 = 'F'
                      · exfalso
                        subst hF
                        exact absurd halpha (by decide)
                      · rw [if_neg hF]
        · rw [if_neg hs0b]
          by_cases hsO : s0 = 'O'
          · subst hsO
            rw [if_pos rfl]
            have halpha : s1.isAlpha = false := by
              cases ha : s1.isAlpha
              · rfl
              · exfalso
                simp [ha] at hfam
            by_cases hH : s1 = 'H'
            · exfalso
              subst hH
              exact absurd halpha (by decide)
            · rw [if_neg hH]
              by_cases hF : s1 = 'F'
              · exfalso
                subst hF
                exact absurd halpha (by decide)
              · rw [if_neg hF]
          · rw [if_neg hsO]

/-- Witness for `read_key_events`: a plain byte is returned verbatim, and
a truncated sequence (escape, timeout) plus an unrecognized sequence both
collapse to a bare escape. -/
theorem read_key_events_witness :
    editor_read_key 'a' none none none = Key.ch 'a'
      ∧ editor_read_key esc none none none = Key.ch esc
      ∧ editor_read_key esc (some '[') (some '!') none = Key.ch esc :=
  ⟨(read_key_events 'a' none none none).1 (by decide),
   (read_key_events esc none none none).2.2.1 rfl (Or.inl rfl),
   (read_key_events esc (some '[') (some '!') none).2.2.2 rfl (by decide)⟩

end Kilo
